import Mathlib

/-!
Verification of the timing-control and state-diffing utility module of the
`react-type-test` repository (`src/util/module.ts` and its duplicate copy).

The JavaScript values handled by `stateChanged` are JSON-like: primitives,
plain objects (string-keyed records) and arrays.  We embed them as the
inductive type `Val`.  Primitives are modelled by integers; `undef` models
the JavaScript value `undefined` (the result of reading an absent property,
and the content of array holes).  JavaScript strict equality `===` compares
primitives by value and objects/arrays by reference; since `prev` and
`current` are distinct structures (no aliasing between the two snapshots is
assumed), `===` on two object/array operands is modelled as `false`.
-/

namespace ReactTypeTest

inductive Val where
  | undef : Val
  | prim : Int → Val
  | obj : List (String × Val) → Val
  | arr : List Val → Val

/-- `isObject` from the source: true for non-null objects that are not arrays.
`undef` and primitives are not objects. -/
def isObject : Val → Bool
  | .obj _ => true
  | _ => false

/-- `Array.isArray`. -/
def isArray : Val → Bool
  | .arr _ => true
  | _ => false

/-- JavaScript strict equality `===` between two present values:
primitives by value, `undefined === undefined` true, and object/array
operands compare by reference, hence `false` across the two distinct
snapshots (no-aliasing model). -/
def jsStrictEq : Val → Val → Bool
  | .undef, .undef => true
  | .prim a, .prim b => a == b
  | _, _ => false

/-- Property read `o[key]` on a record, `none` modelling `undefined`
(absent key).  First binding wins, as in a well-formed JS object where
keys are unique. -/
def lookup : List (String × Val) → String → Option Val
  | [], _ => none
  | (k, v) :: rest, key => if k == key then some v else lookup rest key

/-- Strict equality where the left operand may be the `undefined` read of an
absent key: `undefined === c` holds only for `c = undefined`. -/
def jsStrictEqO : Option Val → Val → Bool
  | none, .undef => true
  | none, _ => false
  | some p, c => jsStrictEq p c

/-- The key list `Object.keys` of a record or patch. -/
def keys (kvs : List (String × Val)) : List String :=
  kvs.map Prod.fst

/-- Drop the trailing unassigned entries of the sparse `arrayChanges` array:
a JS array's `length` is one more than the largest assigned index. -/
def trimHoles (l : List (Option Val)) : List (Option Val) :=
  (l.reverse.dropWhile Option.isNone).reverse

/-- Turn the sparse `arrayChanges` into a `Val` array, holes reading as
`undefined`. -/
def holesToVal (l : List (Option Val)) : List Val :=
  l.map (fun o => o.getD .undef)

mutual

/-- `stateChanged(prev, current)` from the source: iterate over the keys of
`current` in order; each key contributes its diff entry (at most one
binding). -/
def stateChanged (prev : List (String × Val)) : List (String × Val) → List (String × Val)
  | [] => []
  | (k, cv) :: rest => diffEntry (lookup prev k) k cv ++ stateChanged prev rest
termination_by current => sizeOf current

/-- The body of the `forEach` over one key of `current`: `pv` is
`prev[key]` (possibly `undefined`), `cv` is `current[key]`.  Returns the
bindings this key contributes to `changes` (none or one). -/
def diffEntry (pv : Option Val) (k : String) (cv : Val) : List (String × Val) :=
  match pv, cv with
  | some (.arr pa), .arr ca =>
    if pa.length ≠ ca.length then [(k, .arr ca)]
    else if (trimHoles (arrayEntries pa ca)).length > 0 then
      [(k, .arr (holesToVal (trimHoles (arrayEntries pa ca))))]
    else []
  | some (.obj po), .obj co =>
    if (stateChanged po co).length > 0 then [(k, .obj (stateChanged po co))] else []
  | pv, cv => if jsStrictEqO pv cv then [] else [(k, cv)]
termination_by sizeOf cv

/-- The element-wise `forEach` over two arrays of equal length, producing
the sparse `arrayChanges` (a `none` is an unassigned index). -/
def arrayEntries : List Val → List Val → List (Option Val)
  | p :: ps, c :: cs => arrayElem p c :: arrayEntries ps cs
  | _, _ => []
termination_by _ ca => sizeOf ca

/-- One index of the array comparison: both objects recurse (assigned only
when the recursive diff is non-empty); otherwise the index is always
assigned — the new element when strictly unequal, the old element when
equal. -/
def arrayElem (p c : Val) : Option Val :=
  match p, c with
  | .obj po, .obj co =>
    if (stateChanged po co).length > 0 then some (.obj (stateChanged po co)) else none
  | p, c => if jsStrictEq p c then some p else some c
termination_by sizeOf c

end

/-! ## Well-formedness of records

A JavaScript object cannot bind the same key twice, so a well-formed
record has pairwise-distinct keys, recursively. -/

/-- `k` does not occur among the keys of `l`. -/
def keyFresh (k : String) : List (String × Val) → Bool
  | [] => true
  | (k', _) :: rest => (k != k') && keyFresh k rest

mutual

/-- Recursively well-formed value: every embedded record has distinct keys. -/
def wfV : Val → Bool
  | .obj kvs => wfL kvs
  | .arr vs => wfA vs
  | _ => true
termination_by v => sizeOf v

/-- Recursively well-formed record. -/
def wfL : List (String × Val) → Bool
  | [] => true
  | (k, v) :: rest => keyFresh k rest && wfV v && wfL rest
termination_by l => sizeOf l

/-- Recursively well-formed array contents. -/
def wfA : List Val → Bool
  | [] => true
  | v :: rest => wfV v && wfA rest
termination_by l => sizeOf l

end

/-- Top-level key distinctness only. -/
def nodupKeys : List (String × Val) → Bool
  | [] => true
  | (k, _) :: rest => keyFresh k rest && nodupKeys rest

mutual

/-- A value containing no sequence anywhere. -/
def arrayFreeV : Val → Bool
  | .arr _ => false
  | .obj kvs => arrayFreeL kvs
  | _ => true
termination_by v => sizeOf v

/-- A record containing no sequence anywhere. -/
def arrayFreeL : List (String × Val) → Bool
  | [] => true
  | (_, v) :: rest => arrayFreeV v && arrayFreeL rest
termination_by l => sizeOf l

end

/-! ## Applying a patch (modelled from the spec)

The source never applies a patch; §8.9 of the spec speaks of applying
`stateChanged(prev, current)` conceptually "on top of" `prev`.  The
definitions below follow the spec's words: a patch binding replaces the
corresponding binding of `prev` (added when absent), except that a nested
record patch applied over a record value is applied recursively. -/

/-- Write key `k` to value `v` in a record: overwrite in place when the key
is present, append otherwise. -/
def setKey (p : List (String × Val)) (k : String) (v : Val) : List (String × Val) :=
  if (lookup p k).isSome then
    p.map (fun kv => if kv.1 == k then (k, v) else kv)
  else p ++ [(k, v)]

mutual

/-- Modelled from the spec: apply a Diff Patch on top of a previous record,
binding by binding; a nested record patch over an existing record value
merges recursively, anything else replaces. -/
def applyPatch : List (String × Val) → List (String × Val) → List (String × Val)
  | p, [] => p
  | p, (k, qv) :: rest => applyPatch (setKey p k (mergeVal (lookup p k) qv)) rest
termination_by p q => sizeOf q

/-- Modelled from the spec: the value an applied patch binding writes — a
record patch over a record value merges recursively, anything else
replaces. -/
def mergeVal : Option Val → Val → Val
  | some (.obj po), .obj pd => Val.obj (applyPatch po pd)
  | _, qv => qv
termination_by _ qv => sizeOf qv

end

/-! ## The throttle wrapper (source part_002, `throttle`)

The wrapper closes over `last` (initially `0`), `timer` (the timeout id
variable — never cleared back to `undefined` once assigned) and `result`.
Time is modelled as `Int`, matching JS clock readings that may move
backwards.  `pending` is the live scheduled invocation (absent once fired
or cancelled), while `timerSet` models the truthiness of the `timer`
variable itself, which survives both firing and `clearTimeout`. -/

structure ThrottleState (α ρ : Type) where
  last : Int
  timerSet : Bool
  pending : Option (Int × α)
  result : Option ρ
deriving DecidableEq

/-- The state of a freshly created throttle wrapper. -/
def throttleInit {α ρ : Type} : ThrottleState α ρ := ⟨0, false, none, none⟩

/-- One call of the throttled wrapper at clock reading `now`.  Returns the
new state, the value the call returns, and the executions of `func` this
call performed directly (tagged `false` = not deferred). -/
def throttleCall {α ρ : Type} (fn : α → ρ) (delay : Int) (s : ThrottleState α ρ)
    (now : Int) (a : α) : ThrottleState α ρ × Option ρ × List (Int × α × Bool) :=
  let wait := delay - (now - s.last)
  if wait ≤ 0 then
    let r := fn a
    (⟨now, s.timerSet, none, some r⟩, some r, [(now, a, false)])
  else if s.timerSet = false then
    (⟨s.last, true, some (now + wait, a), s.result⟩, s.result, [])
  else
    (s, s.result, [])

/-- The deferred timer firing at its due time `d` with the captured
arguments `a`: sets `last` to the firing clock reading and caches the
result.  The `timer` variable is not cleared by the callback, so
`timerSet` survives. -/
def throttleFire {α ρ : Type} (fn : α → ρ) (s : ThrottleState α ρ) (d : Int) (a : α) :
    ThrottleState α ρ :=
  ⟨d, s.timerSet, none, some (fn a)⟩

/-- Process a sequence of calls, each a clock reading paired with
arguments, through the single-threaded event loop: a pending timer whose
due time has been reached fires before the next call is handled.
Returns the final state and all executions of `func`, in order, each
tagged with whether it was deferred. -/
def throttleRun {α ρ : Type} (fn : α → ρ) (delay : Int) :
    ThrottleState α ρ → List (Int × α) → ThrottleState α ρ × List (Int × α × Bool)
  | s, [] => (s, [])
  | s, (t, a) :: rest =>
    match s.pending with
    | some (d, qa) =>
      if d ≤ t then
        let s1 := throttleFire fn s d qa
        let c := throttleCall fn delay s1 t a
        let r := throttleRun fn delay c.1 rest
        (r.1, (d, qa, true) :: c.2.2 ++ r.2)
      else
        let c := throttleCall fn delay s t a
        let r := throttleRun fn delay c.1 rest
        (r.1, c.2.2 ++ r.2)
    | none =>
      let c := throttleCall fn delay s t a
      let r := throttleRun fn delay c.1 rest
      (r.1, c.2.2 ++ r.2)

/-- After the last call, let any still-pending timer fire. -/
def throttleFlush {α ρ : Type} (fn : α → ρ) (p : ThrottleState α ρ × List (Int × α × Bool)) :
    ThrottleState α ρ × List (Int × α × Bool) :=
  match p.1.pending with
  | some (d, a) => (throttleFire fn p.1 d a, p.2 ++ [(d, a, true)])
  | none => p

/-- A full run: process every call, then drain the pending timer. -/
def throttleRunF {α ρ : Type} (fn : α → ρ) (delay : Int) (s : ThrottleState α ρ)
    (calls : List (Int × α)) : ThrottleState α ρ × List (Int × α × Bool) :=
  throttleFlush fn (throttleRun fn delay s calls)

/-- The immediate lane alone: starting from clock anchor `last`, a call
executes directly exactly when `delay - (now - last) ≤ 0`, which then
re-anchors `last`. -/
def immediateExecs {α : Type} (delay : Int) : Int → List (Int × α) → List (Int × α × Bool)
  | _, [] => []
  | last, (t, a) :: rest =>
    if delay - (t - last) ≤ 0 then (t, a, false) :: immediateExecs delay t rest
    else immediateExecs delay last rest

/-! ## The debounce wrapper (source part_002, `debounce`)

The wrapper closes over `timer` and `result`.  Every call cancels the
pending timer, arms a fresh one for `wait` ms capturing this call's
arguments, and returns the cached result synchronously.  Times are `Nat`
(the debounce claims involve no clock skew). -/

structure DebounceState (α ρ : Type) where
  pending : Option (Nat × α)
  result : Option ρ
deriving DecidableEq

/-- The state of a freshly created debounce wrapper: no timer ever armed,
result slot uninitialized (`undefined`). -/
def debounceInit {α ρ : Type} : DebounceState α ρ := ⟨none, none⟩

/-- The wrapper body: `clearTimeout` the pending timer, arm a new one due
at `t + wait` capturing this call's arguments, and return the cached
result. -/
def debounceCall {α ρ : Type} (wait : Nat) (s : DebounceState α ρ) (t : Nat) (a : α) :
    DebounceState α ρ × Option ρ :=
  (⟨some (t + wait, a), s.result⟩, s.result)

/-- The timer callback: run `func` on the captured arguments and cache the
result.  (The JS `timer` variable keeps the fired id, but debounce only
ever `clearTimeout`s it — a no-op on a fired timer — so dropping the
pending entry is observationally faithful.) -/
def debounceFire {α ρ : Type} (fn : α → ρ) (a : α) : DebounceState α ρ :=
  ⟨none, some (fn a)⟩

/-- Process a sequence of timed calls through the event loop: a pending
timer due at or before the next call's time fires first.  Returns the
final state, the executions of `func` (due time and arguments), and the
value returned by each call, in call order. -/
def debounceRun {α ρ : Type} (fn : α → ρ) (wait : Nat) :
    DebounceState α ρ → List (Nat × α) →
    DebounceState α ρ × List (Nat × α) × List (Option ρ)
  | s, [] => (s, [], [])
  | s, (t, a) :: rest =>
    match s.pending with
    | some (d, qa) =>
      if d ≤ t then
        let s1 := debounceFire fn qa
        let c := debounceCall wait s1 t a
        let r := debounceRun fn wait c.1 rest
        (r.1, (d, qa) :: r.2.1, c.2 :: r.2.2)
      else
        let c := debounceCall wait s t a
        let r := debounceRun fn wait c.1 rest
        (r.1, r.2.1, c.2 :: r.2.2)
    | none =>
      let c := debounceCall wait s t a
      let r := debounceRun fn wait c.1 rest
      (r.1, r.2.1, c.2 :: r.2.2)

/-- After the last call, let the pending timer (if any) fire. -/
def debounceFlush {α ρ : Type} (fn : α → ρ)
    (p : DebounceState α ρ × List (Nat × α) × List (Option ρ)) :
    DebounceState α ρ × List (Nat × α) × List (Option ρ) :=
  match p.1.pending with
  | some (d, a) => (debounceFire fn a, p.2.1 ++ [(d, a)], p.2.2)
  | none => p

/-- A full run: process every call, then drain the pending timer. -/
def debounceRunF {α ρ : Type} (fn : α → ρ) (wait : Nat) (s : DebounceState α ρ)
    (calls : List (Nat × α)) :
    DebounceState α ρ × List (Nat × α) × List (Option ρ) :=
  debounceFlush fn (debounceRun fn wait s calls)

/-! ## Wrap-time validation of the three factories

`debouncePress` (module.ts) begins with
`if (typeof func !== "function") throw new TypeError("Expected a function")`;
`debounce` and `throttle` (part_002) perform no wrap-time test at all.
The argument records whether the supplied `func` is callable. -/

inductive WrapOutcome where
  | accepted
  | invalidArgument
deriving DecidableEq

/-- `debounce` builds and returns its wrapper without inspecting `func`. -/
def debounceWrap (_funcIsCallable : Bool) : WrapOutcome := .accepted

/-- `throttle` builds and returns its wrapper without inspecting `func`. -/
def throttleWrap (_funcIsCallable : Bool) : WrapOutcome := .accepted

/-- `debouncePress` throws `TypeError` at wrap time when `func` is not
callable. -/
def debouncePressWrap (funcIsCallable : Bool) : WrapOutcome :=
  if funcIsCallable then .accepted else .invalidArgument

/-- `shouldInvoke` from `debouncePress` (module.ts): invoke when this is
the first call, when `wait` has elapsed since the last call, or when the
clock moved backwards (`timeSinceLastCall < 0`). -/
def shouldInvoke (lastCallTime : Option Int) (wait time : Int) : Bool :=
  match lastCallTime with
  | none => true
  | some lc => (time - lc ≥ wait) || (time - lc < 0)

/-! ## Basic lemmas about records and the diff -/

theorem lookup_append (a b : List (String × Val)) (k : String) :
    lookup (a ++ b) k = (lookup a k).or (lookup b k) := by
  induction a with
  | nil => simp [lookup]
  | cons hd tl ih =>
    obtain ⟨k', v'⟩ := hd
    simp only [List.cons_append, lookup]
    by_cases h : k' == k <;> simp [h, ih]

theorem lookup_eq_none_iff (l : List (String × Val)) (k : String) :
    lookup l k = none ↔ k ∉ keys l := by
  induction l with
  | nil => simp [lookup, keys]
  | cons hd tl ih =>
    obtain ⟨k', v'⟩ := hd
    simp only [lookup, keys, List.map_cons, List.mem_cons]
    by_cases h : k' == k
    · have : k' = k := by simpa using h
      simp [h, this]
    · have : ¬ k = k' := by
        intro e; exact h (by simp [e])
      simp [h, this, ih, keys]

theorem mem_keys_of_lookup {l : List (String × Val)} {k : String} {v : Val}
    (h : lookup l k = some v) : k ∈ keys l := by
  by_contra hk
  rw [← lookup_eq_none_iff] at hk
  simp [hk] at h

theorem mem_of_lookup {l : List (String × Val)} {k : String} {v : Val}
    (h : lookup l k = some v) : (k, v) ∈ l := by
  induction l with
  | nil => simp [lookup] at h
  | cons hd tl ih =>
    obtain ⟨k', v'⟩ := hd
    simp only [lookup] at h
    by_cases hk : k' == k
    · have e : k' = k := by simpa using hk
      simp [hk] at h
      simp [e, h]
    · simp [hk] at h
      exact List.mem_cons_of_mem _ (ih h)

theorem keyFresh_iff (k : String) (l : List (String × Val)) :
    keyFresh k l = true ↔ k ∉ keys l := by
  induction l with
  | nil => simp [keyFresh, keys]
  | cons hd tl ih =>
    obtain ⟨k', v'⟩ := hd
    simp only [keyFresh, Bool.and_eq_true, keys, List.map_cons, List.mem_cons, not_or,
      bne_iff_ne, ne_eq, ih]

theorem lookup_of_mem_nodup {l : List (String × Val)} {k : String} {v : Val}
    (hn : nodupKeys l = true) (hm : (k, v) ∈ l) : lookup l k = some v := by
  induction l with
  | nil => simp at hm
  | cons hd tl ih =>
    obtain ⟨k', v'⟩ := hd
    simp only [nodupKeys, Bool.and_eq_true] at hn
    rcases List.mem_cons.mp hm with h | h
    · rw [Prod.mk.injEq] at h
      obtain ⟨e1, e2⟩ := h
      simp [lookup, e1, e2]
    · have hk : k ∈ keys tl := by
        simp [keys]
        exact ⟨v, h⟩
      have : ¬ (k' = k) := by
        intro e
        exact ((keyFresh_iff k' tl).mp hn.1) (e ▸ hk)
      simp only [lookup]
      rw [if_neg (by simpa using this)]
      exact ih hn.2 h

theorem wfL_nodupKeys {l : List (String × Val)} (h : wfL l = true) :
    nodupKeys l = true := by
  induction l with
  | nil => simp [nodupKeys]
  | cons hd tl ih =>
    obtain ⟨k, v⟩ := hd
    simp only [wfL, Bool.and_eq_true] at h
    simp only [nodupKeys, Bool.and_eq_true]
    exact ⟨h.1.1, ih h.2⟩

/-- Each key of `current` contributes no binding or exactly one binding,
under its own key. -/
theorem diffEntry_shape (pv : Option Val) (k : String) (cv : Val) :
    diffEntry pv k cv = [] ∨ ∃ w, diffEntry pv k cv = [(k, w)] := by
  rw [diffEntry.eq_def]
  split <;> (try split) <;> (try split)
  all_goals try exact Or.inl rfl
  all_goals exact Or.inr ⟨_, rfl⟩

theorem keys_stateChanged_subset (prev current : List (String × Val)) :
    ∀ k, k ∈ keys (stateChanged prev current) → k ∈ keys current := by
  induction current with
  | nil => intro k h; simp [stateChanged, keys] at h
  | cons hd tl ih =>
    obtain ⟨k', cv⟩ := hd
    intro k h
    rw [stateChanged] at h
    simp only [keys, List.map_append, List.mem_append] at h
    rcases h with h | h
    · rcases diffEntry_shape (lookup prev k') k' cv with he | ⟨w, he⟩
      · simp [he] at h
      · simp [he] at h
        simp [keys, h]
    · simp only [keys, List.map_cons, List.mem_cons]
      exact Or.inr (ih k h)

/-- C6: the patch returned by `stateChanged(prev, current)` contains only
keys present in `current`; a key present only in `prev` is never reported,
whatever its value — deletions are invisible to the diff. -/
theorem c6_patch_keys_only_current (prev current : List (String × Val)) (k : String)
    (h : k ∈ keys (stateChanged prev current)) : k ∈ keys current :=
  keys_stateChanged_subset prev current k h

/-- C6 witness: diffing `{a: 1, b: 2}` against `{a: 3}`, the key `a` of the
patch is a key of `current`; the deleted key `b` is absent from the patch. -/
theorem c6_patch_keys_only_current_witness :
    "a" ∈ keys [("a", Val.prim 3)] ∧
      "b" ∉ keys (stateChanged [("a", Val.prim 1), ("b", Val.prim 2)] [("a", Val.prim 3)]) := by
  constructor
  · exact c6_patch_keys_only_current
      [("a", Val.prim 1), ("b", Val.prim 2)] [("a", Val.prim 3)] "a"
      (by simp [stateChanged, diffEntry, lookup, jsStrictEqO, jsStrictEq, keys])
  · simp [stateChanged, diffEntry, lookup, jsStrictEqO, jsStrictEq, keys]

/-! ## C8: wrap-time validation -/

/-- C8 counterexample: the claim asserts that every wrapper factory fails
fast with `InvalidArgument` when given a non-callable `fn`; but `throttle`
and `debounce` accept a non-callable at wrap time. -/
theorem c8_counterexample_no_uniform_validation :
    throttleWrap false = WrapOutcome.accepted ∧
      debounceWrap false = WrapOutcome.accepted := by
  exact ⟨rfl, rfl⟩

/-- C8 amended: only `debouncePress` validates at wrap time — a
non-callable `fn` makes it fail fast with a synchronous `TypeError`
(`InvalidArgument`); `debounce` and `throttle` perform no wrap-time
validation and accept any `fn`. -/
theorem c8_amended_only_debouncePress_validates :
    debouncePressWrap false = WrapOutcome.invalidArgument ∧
      debouncePressWrap true = WrapOutcome.accepted ∧
      (∀ b, debounceWrap b = WrapOutcome.accepted) ∧
      (∀ b, throttleWrap b = WrapOutcome.accepted) := by
  refine ⟨rfl, rfl, fun b => rfl, fun b => rfl⟩

/-! ## C2, C7, C9: the throttle wrapper -/

/-- C2 counterexample: with `delay = 100`, a call at `t = 50` (args `10`)
arms the timer for `t = 100`; a second call at `t = 60` (args `20`) arrives
while the timer is armed.  The claim says the queued arguments are
overwritten so the deferred execution runs with `20`; in fact the deferred
execution at `t = 100` runs with `10`, and args `20` never execute. -/
theorem c2_counterexample_queued_args_not_overwritten :
    (throttleRunF (fun a : Int => a) 100 throttleInit [(50, 10), (60, 20)]).2
        = [(100, 10, true)] ∧
      ((throttleRunF (fun a : Int => a) 100 throttleInit [(50, 10), (60, 20)]).2.all
        (fun e => e.2.1 != 20)) = true := by
  decide

/-- C2 amended: while the deferred timer is armed, a new call in the
deferred lane is ignored entirely — it neither arms a second timer nor
overwrites the queued arguments, leaving the wrapper state unchanged — so
the deferred execution, when it fires, runs `fn` with the arguments of the
call that armed the timer, and the calls arriving in between are dropped,
never executed. -/
theorem c2_amended_armed_timer_ignores_calls {α ρ : Type} (fn : α → ρ) (delay : Int)
    (s : ThrottleState α ρ) (now : Int) (a : α) (d : Int) (qa : α)
    (hp : s.pending = some (d, qa)) (ht : s.timerSet = true)
    (hw : 0 < delay - (now - s.last)) :
    throttleCall fn delay s now a = (s, s.result, []) ∧
      throttleFire fn s d qa = ⟨d, true, none, some (fn qa)⟩ := by
  constructor
  · unfold throttleCall
    rw [if_neg (by omega), ht]
    simp
  · unfold throttleFire
    rw [ht]

/-- C2 amended witness: armed state `pending = (100, 10)`; a call at `t=60`
with args `20` changes nothing, and the fire runs `fn` on `10`. -/
theorem c2_amended_armed_timer_ignores_calls_witness :
    throttleCall (fun a : Int => a) 100 ⟨0, true, some (100, 10), none⟩ 60 20
        = (⟨0, true, some (100, 10), none⟩, none, []) ∧
      throttleFire (fun a : Int => a) ⟨0, true, some (100, 10), none⟩ 100 10
        = ⟨100, true, none, some 10⟩ :=
  c2_amended_armed_timer_ignores_calls (fun a : Int => a) 100
    ⟨0, true, some (100, 10), none⟩ 60 20 100 10 rfl rfl (by decide)

/-- C9: once the wrapper's timer fired (`timer` id still set, no pending
invocation), no call can ever arm a timer again — `!timer` is permanently
false — so a whole run produces exactly the immediate-lane executions:
calls arriving before `delay` has elapsed since the last execution are
dropped (their arguments never execute, nothing deferred is scheduled),
and only a call arriving once `delay` has elapsed runs `fn` again. -/
theorem c9_fired_timer_never_rearms {α ρ : Type} (fn : α → ρ) (delay : Int)
    (s : ThrottleState α ρ) (hset : s.timerSet = true) (hp : s.pending = none)
    (calls : List (Int × α)) :
    (throttleRun fn delay s calls).2 = immediateExecs delay s.last calls ∧
      (throttleRun fn delay s calls).1.pending = none ∧
      (throttleRun fn delay s calls).1.timerSet = true := by
  induction calls generalizing s with
  | nil => simp [throttleRun, immediateExecs, hp, hset]
  | cons hd tl ih =>
    obtain ⟨t, a⟩ := hd
    rw [throttleRun, hp]
    by_cases hw : delay - (t - s.last) ≤ 0
    · have := ih (s := ⟨t, s.timerSet, none, some (fn a)⟩) (by simpa using hset) rfl
      simp only [throttleCall, if_pos hw]
      simp only [immediateExecs, if_pos hw]
      simpa using this
    · have := ih (s := s) hset hp
      simp only [throttleCall, if_neg hw, hset]
      simp only [immediateExecs, if_neg hw]
      simpa using this

/-- C9 witness: after a fire, with `delay = 100` and `last = 0`, a call at
`t = 50` is dropped and a call at `t = 100` executes immediately. -/
theorem c9_fired_timer_never_rearms_witness :
    (throttleRun (fun a : Int => a) 100
        (⟨0, true, none, some 7⟩ : ThrottleState Int Int) [(50, 1), (100, 2)]).2
        = immediateExecs 100 0 [(50, 1), (100, 2)] ∧
      immediateExecs 100 (0 : Int) [((50 : Int), (1 : Int)), (100, 2)] = [(100, 2, false)] :=
  ⟨(c9_fired_timer_never_rearms (fun a : Int => a) 100 _ rfl rfl _).1, by decide⟩

/-- C7 counterexample: `delay = 100`; a first call at clock `200` executes
immediately (anchoring `last = 200`); a second call reads the skewed clock
`100`, so `t - last = -100 < 0`.  The claim says this call executes `fn`
immediately; in fact it computes `wait = 200`, arms a timer for clock
`300`, and its arguments execute only there — the run contains no
execution at time `100`. -/
theorem c7_counterexample_skew_waits :
    (throttleRunF (fun a : Int => a) 100 throttleInit [(200, 1), (100, 2)]).2
        = [(200, 1, false), (300, 2, true)] ∧
      ((throttleRunF (fun a : Int => a) 100 throttleInit [(200, 1), (100, 2)]).2.all
        (fun e => !(e.1 == 100 && e.2.2 == false))) = true := by
  decide

/-- C7 amended: throttle treats clock skew (`now - last < 0`) as "delay not
yet elapsed": the remaining wait `delay - (now - last)` exceeds `delay`, so
the call never executes `fn` on the calling turn — it arms a deferred
execution at `now + delay - (now - last)` when no timer id exists, and is
dropped otherwise.  (`debouncePress`'s `shouldInvoke`, by contrast, does
classify a negative elapsed time as invokable.) -/
theorem c7_amended_skew_defers {α ρ : Type} (fn : α → ρ) (delay : Int)
    (s : ThrottleState α ρ) (now : Int) (a : α)
    (hskew : now < s.last) (hd : 0 ≤ delay) :
    (throttleCall fn delay s now a).2.2 = [] ∧
      (throttleCall fn delay s now a).1.pending
        = (if s.timerSet then s.pending
           else some (now + (delay - (now - s.last)), a)) ∧
      (∀ lc wait time : Int, time < lc → shouldInvoke (some lc) wait time = true) := by
  refine ⟨?_, ?_, ?_⟩
  · unfold throttleCall
    rw [if_neg (by omega)]
    by_cases ht : s.timerSet = false <;> simp [ht]
  · unfold throttleCall
    rw [if_neg (by omega)]
    by_cases ht : s.timerSet = false
    · simp [ht]
    · simp only [Bool.not_eq_false] at ht
      simp [ht]
  · intro lc wait time hlt
    simp only [shouldInvoke, Bool.or_eq_true, decide_eq_true_eq]
    right
    omega

/-- C7 amended witness: after an execution at clock `200`, a call at skewed
clock `100` performs no execution and arms the timer for clock `300`;
`shouldInvoke` would have said invoke. -/
theorem c7_amended_skew_defers_witness :
    (throttleCall (fun a : Int => a) 100
        (⟨200, false, none, some 1⟩ : ThrottleState Int Int) 100 2).2.2 = [] ∧
      (throttleCall (fun a : Int => a) 100
        (⟨200, false, none, some 1⟩ : ThrottleState Int Int) 100 2).1.pending
        = (if (false : Bool) then none else some (300, 2)) ∧
      (∀ lc wait time : Int, time < lc → shouldInvoke (some lc) wait time = true) :=
  c7_amended_skew_defers (fun a : Int => a) 100 ⟨200, false, none, some 1⟩ 100 2
    (by decide) (by decide)

/-! ## C5, C10: the debounce wrapper -/

/-- The flush touches only the state and the execution list, and appends at
most the pending invocation. -/
theorem debounceFlush_execs {α ρ : Type} (fn : α → ρ) (x : DebounceState α ρ)
    (e : List (Nat × α)) (r : List (Option ρ)) :
    (debounceFlush fn (x, e, r)).2.1
      = e ++ (match x.pending with | some (d, a) => [(d, a)] | none => []) := by
  unfold debounceFlush
  match h : x.pending with
  | some (d, a) => simp [h]
  | none => simp [h]

/-- The executions of a full run are the executions of the call phase
followed by the drained pending invocation, independent of the returns. -/
theorem debounceRunF_execs {α ρ : Type} (fn : α → ρ) (wait : Nat)
    (s : DebounceState α ρ) (calls : List (Nat × α)) :
    (debounceRunF fn wait s calls).2.1
      = (debounceRun fn wait s calls).2.1
        ++ (match (debounceRun fn wait s calls).1.pending with
            | some (d, a) => [(d, a)] | none => []) := by
  rw [debounceRunF]
  rcases h : debounceRun fn wait s calls with ⟨x, e, r⟩
  rw [debounceFlush_execs]

/-- In a chain of calls ordered by time, every call time is bounded by the
last one. -/
theorem chain_le_getLast {α : Type} (wait : Nat) :
    ∀ (calls : List (Nat × α)) (tL : Nat) (aL : α),
      List.Chain' (fun p q : Nat × α => p.1 ≤ q.1 ∧ q.1 < p.1 + wait) calls →
      calls.getLast? = some (tL, aL) → ∀ c ∈ calls, c.1 ≤ tL := by
  intro calls
  induction calls with
  | nil => intro tL aL _ hl; simp at hl
  | cons hd tl ih =>
    obtain ⟨t, a⟩ := hd
    intro tL aL hch hl c hc
    cases tl with
    | nil =>
      simp only [List.getLast?_singleton, Option.some.injEq, Prod.mk.injEq] at hl
      obtain ⟨rfl, rfl⟩ := hl
      simp only [List.mem_singleton] at hc
      subst hc
      exact le_refl _
    | cons hd2 tl2 =>
      rw [List.chain'_cons] at hch
      rw [List.getLast?_cons_cons] at hl
      rcases List.mem_cons.mp hc with rfl | hc2
      · have h2 := ih tL aL hch.2 hl hd2 (List.mem_cons_self hd2 tl2)
        have := hch.1.1
        omega
      · exact ih tL aL hch.2 hl c hc2

/-- A burst: starting with a timer armed by the call `(t, a)`, as long as
each next call arrives before the armed timer's due time, every call just
re-arms the timer; after the quiet period only the last call's arguments
execute, exactly once. -/
theorem deb_burst {α ρ : Type} (fn : α → ρ) (wait : Nat) :
    ∀ (calls : List (Nat × α)) (t : Nat) (a : α) (r0 : Option ρ) (tL : Nat) (aL : α),
      List.Chain' (fun p q : Nat × α => p.1 ≤ q.1 ∧ q.1 < p.1 + wait) ((t, a) :: calls) →
      ((t, a) :: calls).getLast? = some (tL, aL) →
      (debounceRunF fn wait ⟨some (t + wait, a), r0⟩ calls).2.1 = [(tL + wait, aL)] := by
  intro calls
  induction calls with
  | nil =>
    intro t a r0 tL aL hch hl
    simp only [List.getLast?_singleton, Option.some.injEq, Prod.mk.injEq] at hl
    obtain ⟨rfl, rfl⟩ := hl
    simp [debounceRunF, debounceRun, debounceFlush, debounceFire]
  | cons hd tl ih =>
    obtain ⟨t1, a1⟩ := hd
    intro t a r0 tL aL hch hl
    rw [List.chain'_cons] at hch
    rw [List.getLast?_cons_cons] at hl
    have hlt : t1 < t + wait := hch.1.2
    have hstep : (debounceRunF fn wait ⟨some (t + wait, a), r0⟩ ((t1, a1) :: tl)).2.1
        = (debounceRunF fn wait ⟨some (t1 + wait, a1), r0⟩ tl).2.1 := by
      rw [debounceRunF_execs, debounceRunF_execs, debounceRun]
      simp only [if_neg (by omega : ¬ t + wait ≤ t1), debounceCall]
    rw [hstep]
    exact ih t1 a1 r0 tL aL hch.2 hl

/-- C5: for a burst of calls each arriving less than `wait` after the one
before, the wrapper never runs `fn` on any calling turn; every call cancels
the earlier pending invocation, whose arguments are discarded; once calls
stop, `fn` executes exactly once, `wait` after the last call and with the
last call's arguments — strictly after every call of the burst. -/
theorem c5_debounce_coalesces {α ρ : Type} (fn : α → ρ) (wait : Nat) (hw : 0 < wait)
    (calls : List (Nat × α)) (tL : Nat) (aL : α)
    (hch : List.Chain' (fun p q : Nat × α => p.1 ≤ q.1 ∧ q.1 < p.1 + wait) calls)
    (hl : calls.getLast? = some (tL, aL)) :
    (debounceRunF fn wait debounceInit calls).2.1 = [(tL + wait, aL)] ∧
      ∀ c ∈ calls, c.1 < tL + wait := by
  refine ⟨?_, fun c hc => ?_⟩
  · cases calls with
    | nil => simp at hl
    | cons hd tl =>
      obtain ⟨t, a⟩ := hd
      have hrw : (debounceRunF fn wait debounceInit ((t, a) :: tl)).2.1
          = (debounceRunF fn wait ⟨some (t + wait, a), none⟩ tl).2.1 := by
        rw [debounceRunF, debounceRunF, debounceRun]
        simp only [debounceInit, debounceCall]
        rcases hfin : debounceRun fn wait ⟨some (t + wait, a), none⟩ tl with ⟨x, e, r⟩
        rw [debounceFlush_execs]
        rw [debounceFlush_execs fn x e r]
      rw [hrw]
      exact deb_burst fn wait tl t a none tL aL hch hl
  · have := chain_le_getLast wait calls tL aL hch hl c hc
    omega

/-- C5 witness: wait 100, five calls at 0,10,20,30,50 — `fn` runs exactly
once, at 150, with the 5th call's arguments. -/
theorem c5_debounce_coalesces_witness :
    (debounceRunF (fun a : Int => a) 100 debounceInit
        [(0, 1), (10, 2), (20, 3), (30, 4), (50, 5)]).2.1 = [(150, 5)] ∧
      ∀ c ∈ [((0 : Nat), (1 : Int)), (10, 2), (20, 3), (30, 4), (50, 5)], c.1 < 150 :=
  c5_debounce_coalesces (fun a : Int => a) 100 (by decide)
    [(0, 1), (10, 2), (20, 3), (30, 4), (50, 5)] 50 5
    (by simp [List.chain'_cons, List.chain'_singleton]) (by decide)

/-- Splitting a run at any point: the later calls continue from the state
the earlier calls produced, and executions and returns concatenate. -/
theorem debounceRun_append {α ρ : Type} (fn : α → ρ) (wait : Nat) :
    ∀ (l1 l2 : List (Nat × α)) (s : DebounceState α ρ),
      debounceRun fn wait s (l1 ++ l2)
        = ((debounceRun fn wait (debounceRun fn wait s l1).1 l2).1,
           (debounceRun fn wait s l1).2.1
             ++ (debounceRun fn wait (debounceRun fn wait s l1).1 l2).2.1,
           (debounceRun fn wait s l1).2.2
             ++ (debounceRun fn wait (debounceRun fn wait s l1).1 l2).2.2) := by
  intro l1
  induction l1 with
  | nil => intro l2 s; simp [debounceRun]
  | cons hd tl ih =>
    obtain ⟨t, a⟩ := hd
    intro l2 s
    rw [List.cons_append, debounceRun, debounceRun]
    match hp : s.pending with
    | some (d, qa) =>
      by_cases hd2 : d ≤ t <;> simp [hd2, ih]
    | none => simp [ih]

/-- Each call returns exactly one value. -/
theorem debounceRun_returns_length {α ρ : Type} (fn : α → ρ) (wait : Nat) :
    ∀ (calls : List (Nat × α)) (s : DebounceState α ρ),
      (debounceRun fn wait s calls).2.2.length = calls.length := by
  intro calls
  induction calls with
  | nil => intro s; simp [debounceRun]
  | cons hd tl ih =>
    obtain ⟨t, a⟩ := hd
    intro s
    rw [debounceRun]
    match hp : s.pending with
    | some (d, qa) =>
      by_cases hd2 : d ≤ t <;> simp [hd2, ih]
    | none => simp [ih]

/-- While no deferred execution has happened, the cached result slot keeps
its initial `undefined`, so every call returns `undefined`. -/
theorem debounceRun_returns_none {α ρ : Type} (fn : α → ρ) (wait : Nat) :
    ∀ (calls : List (Nat × α)) (s : DebounceState α ρ), s.result = none →
      (debounceRun fn wait s calls).2.1 = [] →
      (debounceRun fn wait s calls).2.2 = List.replicate calls.length none := by
  intro calls
  induction calls with
  | nil => intro s _ _; simp [debounceRun]
  | cons hd tl ih =>
    obtain ⟨t, a⟩ := hd
    intro s hres hes
    rw [debounceRun] at hes ⊢
    match hp : s.pending with
    | some (d, qa) =>
      rw [hp] at hes
      by_cases hd2 : d ≤ t
      · simp [hd2] at hes
      · simp only [if_neg hd2, debounceCall, hres] at hes ⊢
        simp only [List.length_cons, List.replicate_succ]
        exact congrArg _ (ih _ rfl hes)
    | none =>
      rw [hp] at hes
      simp only [debounceCall, hres] at hes ⊢
      simp only [List.length_cons, List.replicate_succ]
      exact congrArg _ (ih _ rfl hes)

/-- C10: the wrapper returns `undefined` for its first call and for every
call made before the first deferred execution of `fn` has run: for any
prefix of the call sequence during which no execution occurred, all the
returned values are `undefined`, because the result slot starts
uninitialized and is only written when `fn` actually executes. -/
theorem c10_returns_undefined_before_first_execution {α ρ : Type} (fn : α → ρ)
    (wait : Nat) (calls pre post : List (Nat × α)) (h : calls = pre ++ post)
    (hpre : (debounceRun fn wait (debounceInit (ρ := ρ)) pre).2.1 = []) :
    ((debounceRun fn wait (debounceInit (ρ := ρ)) calls).2.2).take pre.length
      = List.replicate pre.length (none : Option ρ) := by
  subst h
  rw [debounceRun_append]
  have hlen := debounceRun_returns_length fn wait pre (debounceInit (ρ := ρ))
  rw [List.take_append_of_le_length (by omega), List.take_of_length_le (by omega)]
  exact debounceRun_returns_none fn wait pre debounceInit rfl hpre

/-- C10 witness: two calls 10ms apart with wait 100 — both return
`undefined`; in particular the first call of a fresh wrapper does. -/
theorem c10_returns_undefined_before_first_execution_witness :
    ((debounceRun (fun a : Int => a) 100 (debounceInit (ρ := Int))
        [(0, 1), (10, 2)]).2.2).take 2 = List.replicate 2 (none : Option Int) :=
  c10_returns_undefined_before_first_execution (fun a : Int => a) 100
    [(0, 1), (10, 2)] [(0, 1), (10, 2)] [] (by simp) (by decide)

/-! ## C1: unchanged keys in the patch -/

/-- If no key of `c` contributes an entry, the whole diff is empty. -/
theorem stateChanged_nil_of_entries (r : List (String × Val)) :
    ∀ c : List (String × Val),
      (∀ k cv, (k, cv) ∈ c → diffEntry (lookup r k) k cv = []) →
      stateChanged r c = [] := by
  intro c
  induction c with
  | nil => intro _; rw [stateChanged]
  | cons hd tl ih =>
    obtain ⟨k, cv⟩ := hd
    intro h
    rw [stateChanged, h k cv (List.mem_cons_self _ _)]
    simp only [List.nil_append]
    exact ih fun k' cv' hm => h k' cv' (List.mem_cons_of_mem _ hm)

/-- Sequence-free case: when `p` agrees with every binding of `c`, the diff
of `c` against `p` is empty.  (`n` is a size bound driving the induction.) -/
theorem diff_nil_of_agree :
    ∀ (n : Nat) (c p : List (String × Val)), sizeOf c ≤ n → wfL c = true →
      arrayFreeL c = true →
      (∀ k v, (k, v) ∈ c → lookup p k = some v) →
      stateChanged p c = [] := by
  intro n
  induction n with
  | zero =>
    intro c p hs _ _ _
    cases c with
    | nil => rw [stateChanged]
    | cons hd tl => exfalso; simp only [List.cons.sizeOf_spec] at hs; omega
  | succ n ih =>
    intro c p hs hw ha hagree
    cases c with
    | nil => rw [stateChanged]
    | cons hd tl =>
      obtain ⟨k, v⟩ := hd
      rw [stateChanged]
      have hlk : lookup p k = some v := hagree k v (List.mem_cons_self _ _)
      simp only [wfL, Bool.and_eq_true] at hw
      simp only [arrayFreeL, Bool.and_eq_true] at ha
      have htl : stateChanged p tl = [] := by
        apply ih tl p ?_ hw.2 ha.2
          fun k' v' hm => hagree k' v' (List.mem_cons_of_mem _ hm)
        simp only [List.cons.sizeOf_spec] at hs
        omega
      rw [htl, hlk]
      have hde : diffEntry (some v) k v = [] := by
        cases v with
        | undef => rw [diffEntry.eq_def]; simp [jsStrictEqO, jsStrictEq]
        | prim i => rw [diffEntry.eq_def]; simp [jsStrictEqO, jsStrictEq]
        | arr l => simp [arrayFreeV] at ha
        | obj o =>
          have hwo : wfL o = true := by simpa [wfV] using hw.1.2
          have ho : stateChanged o o = [] := by
            apply ih o o ?_ hwo (by simpa [arrayFreeV] using ha.1)
              fun k' v' hm => lookup_of_mem_nodup (wfL_nodupKeys hwo) hm
            simp only [List.cons.sizeOf_spec, Prod.mk.sizeOf_spec,
              Val.obj.sizeOf_spec] at hs
            omega
          rw [diffEntry.eq_def]
          simp [ho]
      rw [hde]
      rfl

/-- A key bound to the same (deep-)value on both sides contributes no entry,
provided the value contains no sequence. -/
theorem diffEntry_self (k : String) (v : Val) (hav : arrayFreeV v = true)
    (hwv : wfV v = true) : diffEntry (some v) k v = [] := by
  cases v with
  | undef => rw [diffEntry.eq_def]; simp [jsStrictEqO, jsStrictEq]
  | prim i => rw [diffEntry.eq_def]; simp [jsStrictEqO, jsStrictEq]
  | arr l => simp [arrayFreeV] at hav
  | obj o =>
    have hwo : wfL o = true := by simpa [wfV] using hwv
    have ho : stateChanged o o = [] :=
      diff_nil_of_agree (sizeOf o) o o (le_refl _) hwo
        (by simpa [arrayFreeV] using hav)
        fun k' v' hm => lookup_of_mem_nodup (wfL_nodupKeys hwo) hm
    rw [diffEntry.eq_def]
    simp [ho]

/-- Sequence-free case: a key reported by the diff has genuinely different
values on the two sides. -/
theorem mem_patch_key_ne :
    ∀ (current prev : List (String × Val)), wfL current = true →
      arrayFreeL current = true →
      ∀ k, k ∈ keys (stateChanged prev current) →
        lookup prev k ≠ lookup current k := by
  intro current
  induction current with
  | nil =>
    intro prev _ _ k hk
    rw [stateChanged] at hk
    simp [keys] at hk
  | cons hd tl ih =>
    obtain ⟨k0, v0⟩ := hd
    intro prev hw ha k hk
    simp only [wfL, Bool.and_eq_true] at hw
    simp only [arrayFreeL, Bool.and_eq_true] at ha
    rw [stateChanged] at hk
    simp only [keys, List.map_append, List.mem_append] at hk
    rcases hk with hk1 | hk1
    · rcases diffEntry_shape (lookup prev k0) k0 v0 with hde | ⟨w, hde⟩
      · rw [hde] at hk1; simp at hk1
      · rw [hde] at hk1
        simp only [List.map_cons, List.map_nil, List.mem_singleton] at hk1
        subst hk1
        simp only [lookup, beq_self_eq_true, if_true]
        intro heq
        rw [heq, diffEntry_self k v0 ha.1 hw.1.2] at hde
        exact absurd hde (by simp)
    · have hk_tl : k ∈ keys tl := keys_stateChanged_subset prev tl k hk1
      have hkne : ¬ k0 = k := by
        intro e
        exact ((keyFresh_iff k0 tl).mp hw.1.1) (e ▸ hk_tl)
      rw [lookup, if_neg (by simpa using hkne)]
      exact ih prev hw.2 ha.2 k hk1

/-- C1 counterexample: two deep-equal records holding the sequence `[1]`
under `x` produce the non-empty patch `{x: [1]}` — the equal-length array
branch stores the unchanged primitive element, and the resulting non-empty
`arrayChanges` is attached even though nothing changed. -/
theorem c1_counterexample_unchanged_array_key_reported :
    stateChanged [("x", Val.arr [Val.prim 1])] [("x", Val.arr [Val.prim 1])]
      = [("x", Val.arr [Val.prim 1])] := by
  simp [stateChanged, diffEntry, arrayEntries, arrayElem, lookup, trimHoles,
    holesToVal, jsStrictEq, jsStrictEqO]

/-- C1 amended: restricted to well-formed records containing no sequences,
the patch contains no key whose value is unchanged (by deep equality): each
reported key has different values in `prev` and `current`, and deep-equal
snapshots produce an empty patch.  (With sequences present the guarantee
fails: an unchanged equal-length array with a primitive element is still
attached.) -/
theorem c1_amended_no_unchanged_keys_without_sequences
    (prev current : List (String × Val)) (hw : wfL current = true)
    (ha : arrayFreeL current = true) :
    (∀ k, k ∈ keys (stateChanged prev current) →
        lookup prev k ≠ lookup current k) ∧
      (prev = current → stateChanged prev current = []) := by
  refine ⟨mem_patch_key_ne current prev hw ha, fun e => ?_⟩
  subst e
  exact diff_nil_of_agree (sizeOf prev) prev prev (le_refl _) hw ha
    fun k v hm => lookup_of_mem_nodup (wfL_nodupKeys hw) hm

/-- C1 amended witness: diffing `{a: 1}` against `{a: 2}` reports `a`, and
indeed the two values differ; the self-diff of `{a: 2}` is empty. -/
theorem c1_amended_no_unchanged_keys_without_sequences_witness :
    lookup [("a", Val.prim 1)] "a" ≠ lookup [("a", Val.prim 2)] "a" ∧
      stateChanged [("a", Val.prim 2)] [("a", Val.prim 2)] = [] :=
  ⟨(c1_amended_no_unchanged_keys_without_sequences
      [("a", Val.prim 1)] [("a", Val.prim 2)]
      (by simp [wfL, wfV, keyFresh]) (by simp [arrayFreeL, arrayFreeV])).1 "a"
      (by simp [stateChanged, diffEntry, lookup, jsStrictEqO, jsStrictEq, keys]),
    (c1_amended_no_unchanged_keys_without_sequences
      [("a", Val.prim 2)] [("a", Val.prim 2)]
      (by simp [wfL, wfV, keyFresh]) (by simp [arrayFreeL, arrayFreeV])).2 rfl⟩

/-! ## C3: the sequence branch of the diff -/

/-- What the patch binds a key of `current` to is exactly decided by that
key's `diffEntry`. -/
theorem lookup_stateChanged_of_entry (prev : List (String × Val)) :
    ∀ (current : List (String × Val)) (k : String) (cv : Val),
      nodupKeys current = true → (k, cv) ∈ current →
      lookup (stateChanged prev current) k
        = match diffEntry (lookup prev k) k cv with
          | [] => none
          | (_, w) :: _ => some w := by
  intro current
  induction current with
  | nil => intro k cv _ hm; simp at hm
  | cons hd tl ih =>
    obtain ⟨k0, cv0⟩ := hd
    intro k cv hn hm
    simp only [nodupKeys, Bool.and_eq_true] at hn
    rw [stateChanged, lookup_append]
    rcases List.mem_cons.mp hm with h | h
    · rw [Prod.mk.injEq] at h
      obtain ⟨rfl, rfl⟩ := h
      rcases diffEntry_shape (lookup prev k) k cv with hde | ⟨w, hde⟩
      · rw [hde]
        have hnone : lookup (stateChanged prev tl) k = none := by
          rw [lookup_eq_none_iff]
          intro hcon
          exact ((keyFresh_iff k tl).mp hn.1) (keys_stateChanged_subset prev tl k hcon)
        simp [lookup, Option.or, hnone]
      · rw [hde]
        simp [lookup, Option.or]
    · have hk_tl : k ∈ keys tl := by
        simp only [keys, List.mem_map]
        exact ⟨(k, cv), h, rfl⟩
      have hkne : ¬ k0 = k := fun e => ((keyFresh_iff k0 tl).mp hn.1) (e ▸ hk_tl)
      rcases diffEntry_shape (lookup prev k0) k0 cv0 with hde | ⟨w, hde⟩
      · rw [hde]
        simp only [lookup, Option.or]
        exact ih k cv hn.2 h
      · rw [hde]
        simp only [lookup, if_neg (by simpa using hkne : ¬ (k0 == k) = true), Option.or]
        exact ih k cv hn.2 h

/-- The sequence/sequence case of `diffEntry`, spelled out. -/
theorem diffEntry_arr_arr (k : String) (pa ca : List Val) :
    diffEntry (some (Val.arr pa)) k (Val.arr ca)
      = if pa.length ≠ ca.length then [(k, Val.arr ca)]
        else if (trimHoles (arrayEntries pa ca)).length > 0 then
          [(k, Val.arr (holesToVal (trimHoles (arrayEntries pa ca))))]
        else [] := by
  rw [diffEntry.eq_def]

/-- The record/record case of the element comparison, spelled out. -/
theorem arrayElem_obj_obj (po co : List (String × Val)) :
    arrayElem (Val.obj po) (Val.obj co)
      = if (stateChanged po co).length > 0
        then some (Val.obj (stateChanged po co)) else none := by
  rw [arrayElem.eq_def]

/-- The primitive/primitive case of the element comparison: old element
kept when equal, new element stored when not. -/
theorem arrayElem_prim_prim (x y : Int) :
    arrayElem (Val.prim x) (Val.prim y)
      = if x = y then some (Val.prim x) else some (Val.prim y) := by
  rw [arrayElem.eq_def]
  by_cases h : x = y <;> simp [jsStrictEq, h]

/-- Index-wise reading of the element loop over two equal-length arrays. -/
theorem arrayEntries_getElem? :
    ∀ (pa ca : List Val) (i : Nat),
      (arrayEntries pa ca)[i]?
        = match pa[i]?, ca[i]? with
          | some p, some c => some (arrayElem p c)
          | _, _ => none := by
  intro pa
  induction pa with
  | nil => intro ca i; cases ca <;> simp [arrayEntries]
  | cons p ps ih =>
    intro ca i
    cases ca with
    | nil => simp [arrayEntries]
    | cons c cs =>
      cases i with
      | zero => rw [arrayEntries]; simp
      | succ j => rw [arrayEntries]; simpa using ih cs j

/-- The trimmed `arrayChanges` is empty exactly when no index was ever
assigned. -/
theorem trimHoles_eq_nil_iff (l : List (Option Val)) :
    trimHoles l = [] ↔ ∀ o ∈ l, o = none := by
  unfold trimHoles
  rw [List.reverse_eq_nil_iff, List.dropWhile_eq_nil_iff]
  constructor
  · intro h o hm
    have := h o (List.mem_reverse.mpr hm)
    simpa [Option.isNone_iff_eq_none] using this
  · intro h o hm
    simp [Option.isNone_iff_eq_none, h o (List.mem_reverse.mp hm)]

/-- C3: for a key bound to sequences on both sides — if the lengths differ
the whole `current` sequence is stored with no element-level diff; if they
match, the elements are compared by index: a changed record element stores
its recursive sub-patch, an unchanged record element stores nothing, an
unequal primitive pair stores the new element and an equal primitive pair
stores the old one, and the indexed structure (holes trimmed from the end,
remaining holes reading `undefined`) is attached under the key exactly when
some index was assigned. -/
theorem c3_sequence_branch (prev current : List (String × Val)) (k : String)
    (pa ca : List Val) (hn : nodupKeys current = true)
    (hp : lookup prev k = some (Val.arr pa)) (hc : (k, Val.arr ca) ∈ current) :
    (pa.length ≠ ca.length →
        lookup (stateChanged prev current) k = some (Val.arr ca)) ∧
      (pa.length = ca.length →
        ((trimHoles (arrayEntries pa ca) ≠ [] →
            lookup (stateChanged prev current) k
              = some (Val.arr (holesToVal (trimHoles (arrayEntries pa ca))))) ∧
          (trimHoles (arrayEntries pa ca) = [] →
            lookup (stateChanged prev current) k = none) ∧
          (trimHoles (arrayEntries pa ca) = [] ↔
            ∀ o ∈ arrayEntries pa ca, o = none))) ∧
      (∀ (i : Nat) (po co : List (String × Val)),
        pa[i]? = some (Val.obj po) → ca[i]? = some (Val.obj co) →
        (stateChanged po co ≠ [] →
            (arrayEntries pa ca)[i]? = some (some (Val.obj (stateChanged po co)))) ∧
          (stateChanged po co = [] → (arrayEntries pa ca)[i]? = some none)) ∧
      (∀ (i : Nat) (x y : Int), pa[i]? = some (Val.prim x) → ca[i]? = some (Val.prim y) →
        (x ≠ y → (arrayEntries pa ca)[i]? = some (some (Val.prim y))) ∧
          (x = y → (arrayEntries pa ca)[i]? = some (some (Val.prim x)))) := by
  have hkey := lookup_stateChanged_of_entry prev current k (Val.arr ca) hn hc
  rw [hp, diffEntry_arr_arr] at hkey
  refine ⟨?_, ?_, ?_, ?_⟩
  · intro hne
    rw [if_pos hne] at hkey
    exact hkey
  · intro hlen
    refine ⟨?_, ?_, trimHoles_eq_nil_iff _⟩
    · intro htr
      rw [if_neg (by omega), if_pos (List.length_pos.mpr htr)] at hkey
      exact hkey
    · intro htr
      rw [if_neg (by omega), if_neg (by simp [htr])] at hkey
      exact hkey
  · intro i po co hpo hco
    rw [arrayEntries_getElem?, hpo, hco]
    constructor
    · intro hne
      simp [arrayElem_obj_obj, List.length_pos.mpr hne]
    · intro hnil
      simp [arrayElem_obj_obj, hnil]
  · intro i x y hpo hco
    rw [arrayEntries_getElem?, hpo, hco]
    constructor
    · intro hne
      simp [arrayElem_prim_prim, hne]
    · intro he
      simp [arrayElem_prim_prim, he]

/-- C3 witness: `{x: [1, 2]}` against `{x: [1, 5]}` — equal lengths, the
unchanged `1` is kept at index 0, the new `5` stored at index 1, and the
full two-element array is attached under `x`. -/
theorem c3_sequence_branch_witness :
    lookup (stateChanged [("x", Val.arr [Val.prim 1, Val.prim 2])]
        [("x", Val.arr [Val.prim 1, Val.prim 5])]) "x"
      = some (Val.arr [Val.prim 1, Val.prim 5]) := by
  have h := ((c3_sequence_branch [("x", Val.arr [Val.prim 1, Val.prim 2])]
      [("x", Val.arr [Val.prim 1, Val.prim 5])] "x"
      [Val.prim 1, Val.prim 2] [Val.prim 1, Val.prim 5]
      (by decide) (by simp [lookup]) (by simp)).2.1 rfl).1
      (by simp [arrayEntries, arrayElem, trimHoles, jsStrictEq])
  rw [h]
  simp [arrayEntries, arrayElem, trimHoles, holesToVal, jsStrictEq]

/-! ## C4: applying the patch and re-diffing -/

/-- The remaining `diffEntry` cases, spelled out. -/
theorem diffEntry_undef (pv : Option Val) (k : String) :
    diffEntry pv k Val.undef
      = if jsStrictEqO pv Val.undef then [] else [(k, Val.undef)] := by
  rw [diffEntry.eq_def]
  cases pv with
  | none => rfl
  | some v => cases v <;> rfl

theorem diffEntry_prim (pv : Option Val) (k : String) (x : Int) :
    diffEntry pv k (Val.prim x)
      = if jsStrictEqO pv (Val.prim x) then [] else [(k, Val.prim x)] := by
  rw [diffEntry.eq_def]
  cases pv with
  | none => rfl
  | some v => cases v <;> rfl

theorem diffEntry_obj_obj (k : String) (po co : List (String × Val)) :
    diffEntry (some (Val.obj po)) k (Val.obj co)
      = if (stateChanged po co).length > 0
        then [(k, Val.obj (stateChanged po co))] else [] := by
  rw [diffEntry.eq_def]

theorem diffEntry_obj_notobj (pv : Option Val) (k : String)
    (co : List (String × Val)) (hnv : ∀ po, pv ≠ some (Val.obj po)) :
    diffEntry pv k (Val.obj co)
      = if jsStrictEqO pv (Val.obj co) then [] else [(k, Val.obj co)] := by
  rw [diffEntry.eq_def]
  cases pv with
  | none => rfl
  | some v =>
    cases v with
    | obj po => exact absurd rfl (hnv po)
    | undef => rfl
    | prim x => rfl
    | arr l => rfl

/-- `mergeVal` reduces to replacement unless both sides are records. -/
theorem mergeVal_not_obj (pv : Option Val) (qv : Val)
    (h : ∀ pd, qv ≠ Val.obj pd) : mergeVal pv qv = qv := by
  rw [mergeVal.eq_def]
  cases pv with
  | none => rfl
  | some v =>
    cases v with
    | obj po =>
      cases qv with
      | obj pd => exact absurd rfl (h pd)
      | undef => rfl
      | prim x => rfl
      | arr l => rfl
    | undef => rfl
    | prim x => rfl
    | arr l => rfl

theorem mergeVal_pv_not_obj (pv : Option Val) (qv : Val)
    (h : ∀ po, pv ≠ some (Val.obj po)) : mergeVal pv qv = qv := by
  rw [mergeVal.eq_def]
  cases pv with
  | none => rfl
  | some v =>
    cases v with
    | obj po => exact absurd rfl (h po)
    | undef => rfl
    | prim x => rfl
    | arr l => rfl

theorem mergeVal_obj_obj (po pd : List (String × Val)) :
    mergeVal (some (Val.obj po)) (Val.obj pd) = Val.obj (applyPatch po pd) := by
  rw [mergeVal.eq_def]

/-- Replacing a present key in place. -/
theorem lookup_mapReplace (k : String) (v : Val) :
    ∀ p : List (String × Val), (lookup p k).isSome →
      lookup (p.map fun kv => if kv.1 == k then (k, v) else kv) k = some v := by
  intro p
  induction p with
  | nil => intro h; simp [lookup] at h
  | cons hd tl ih =>
    obtain ⟨k1, v1⟩ := hd
    intro h
    rw [List.map_cons]
    by_cases hk : (k1 == k) = true
    · rw [if_pos hk, lookup, if_pos (beq_self_eq_true k)]
    · rw [if_neg hk, lookup, if_neg hk]
      rw [lookup, if_neg hk] at h
      exact ih h

theorem lookup_mapReplace_ne (k k' : String) (v : Val) (hne : ¬ k' = k) :
    ∀ p : List (String × Val),
      lookup (p.map fun kv => if kv.1 == k then (k, v) else kv) k' = lookup p k' := by
  intro p
  induction p with
  | nil => rfl
  | cons hd tl ih =>
    obtain ⟨k1, v1⟩ := hd
    rw [List.map_cons]
    by_cases hk : (k1 == k) = true
    · have e1 : k1 = k := by simpa using hk
      have hA : ¬ (k == k') = true := by simpa using fun e => hne e.symm
      have hB : ¬ (k1 == k') = true := by simpa [e1] using hA
      rw [if_pos hk]
      simp only [lookup, if_neg hA, if_neg hB]
      exact ih
    · rw [if_neg hk]
      simp only [lookup]
      by_cases h1 : (k1 == k') = true
      · simp only [if_pos h1]
      · simp only [if_neg h1]
        exact ih

theorem lookup_setKey_self (p : List (String × Val)) (k : String) (v : Val) :
    lookup (setKey p k v) k = some v := by
  unfold setKey
  by_cases h : (lookup p k).isSome
  · rw [if_pos h]
    exact lookup_mapReplace k v p h
  · rw [if_neg h, lookup_append, Option.not_isSome_iff_eq_none.mp h]
    simp [lookup, Option.or]

theorem lookup_setKey_ne (p : List (String × Val)) (k : String) (v : Val)
    (k' : String) (hne : ¬ k' = k) : lookup (setKey p k v) k' = lookup p k' := by
  unfold setKey
  by_cases h : (lookup p k).isSome
  · rw [if_pos h]
    exact lookup_mapReplace_ne k k' v hne p
  · rw [if_neg h, lookup_append]
    have h1 : lookup [(k, v)] k' = none := by
      simp [lookup, show ¬ (k == k') = true from by simpa using fun e => hne e.symm]
    rw [h1]
    cases hx : lookup p k' <;> simp [Option.or]

/-- One step of `applyPatch`, through `mergeVal`. -/
theorem applyPatch_cons (p : List (String × Val)) (k : String) (qv : Val)
    (rest : List (String × Val)) :
    applyPatch p ((k, qv) :: rest)
      = applyPatch (setKey p k (mergeVal (lookup p k) qv)) rest := by
  rw [applyPatch]

theorem lookup_applyPatch_not_mem :
    ∀ (q p : List (String × Val)) (k : String), k ∉ keys q →
      lookup (applyPatch p q) k = lookup p k := by
  intro q
  induction q with
  | nil => intro p k _; rw [applyPatch]
  | cons hd rest ih =>
    obtain ⟨k0, qv⟩ := hd
    intro p k hk
    simp only [keys, List.map_cons, List.mem_cons, not_or] at hk
    rw [applyPatch_cons, ih _ k (by simpa [keys] using hk.2)]
    exact lookup_setKey_ne p k0 _ k hk.1

/-- Reading any key of an applied patch: present patch keys are merged onto
the previous value, absent ones read through. -/
theorem lookup_applyPatch :
    ∀ (q p : List (String × Val)) (k : String), nodupKeys q = true →
      lookup (applyPatch p q) k
        = match lookup q k with
          | none => lookup p k
          | some qv => some (mergeVal (lookup p k) qv) := by
  intro q
  induction q with
  | nil => intro p k _; rw [applyPatch]; simp [lookup]
  | cons hd rest ih =>
    obtain ⟨k0, qv⟩ := hd
    intro p k hn
    simp only [nodupKeys, Bool.and_eq_true] at hn
    rw [applyPatch_cons]
    by_cases hk : k0 = k
    · subst hk
      have hnr : k0 ∉ keys rest := (keyFresh_iff k0 rest).mp hn.1
      rw [lookup_applyPatch_not_mem rest _ k0 hnr, lookup_setKey_self]
      simp [lookup]
    · rw [ih _ k hn.2]
      have h1 : lookup ((k0, qv) :: rest) k = lookup rest k := by
        rw [lookup, if_neg (by simpa using hk)]
      rw [h1]
      cases hr : lookup rest k with
      | none => simp [lookup_setKey_ne p k0 _ k fun e => hk e.symm]
      | some qv' => simp [lookup_setKey_ne p k0 _ k fun e => hk e.symm]

/-- The patch inherits distinct keys from `current`. -/
theorem nodupKeys_stateChanged (prev : List (String × Val)) :
    ∀ current : List (String × Val), nodupKeys current = true →
      nodupKeys (stateChanged prev current) = true := by
  intro current
  induction current with
  | nil => intro _; rw [stateChanged]; rfl
  | cons hd tl ih =>
    obtain ⟨k0, cv⟩ := hd
    intro hn
    simp only [nodupKeys, Bool.and_eq_true] at hn
    rw [stateChanged]
    rcases diffEntry_shape (lookup prev k0) k0 cv with hde | ⟨w, hde⟩
    · rw [hde]
      simpa using ih hn.2
    · rw [hde]
      simp only [List.cons_append, List.nil_append, nodupKeys, Bool.and_eq_true]
      refine ⟨?_, ih hn.2⟩
      rw [keyFresh_iff]
      intro hc
      exact ((keyFresh_iff k0 tl).mp hn.1) (keys_stateChanged_subset prev tl k0 hc)

/-- A bound value is smaller than the record holding it. -/
theorem sizeOf_lt_of_mem_kv :
    ∀ (c : List (String × Val)) (k : String) (cv : Val),
      (k, cv) ∈ c → sizeOf cv < sizeOf c := by
  intro c
  induction c with
  | nil => intro k cv h; simp at h
  | cons hd tl ih =>
    intro k cv h
    rcases List.mem_cons.mp h with h | h
    · subst h
      simp only [List.cons.sizeOf_spec, Prod.mk.sizeOf_spec]
      omega
    · have := ih k cv h
      simp only [List.cons.sizeOf_spec]
      omega

theorem wfV_of_mem :
    ∀ (c : List (String × Val)) (k : String) (cv : Val),
      wfL c = true → (k, cv) ∈ c → wfV cv = true := by
  intro c
  induction c with
  | nil => intro k cv _ h; simp at h
  | cons hd tl ih =>
    intro k cv hw h
    obtain ⟨k1, v1⟩ := hd
    simp only [wfL, Bool.and_eq_true] at hw
    rcases List.mem_cons.mp h with h | h
    · rw [Prod.mk.injEq] at h
      rw [h.2]
      exact hw.1.2
    · exact ih k cv hw.2 h

theorem arrayFreeV_of_mem :
    ∀ (c : List (String × Val)) (k : String) (cv : Val),
      arrayFreeL c = true → (k, cv) ∈ c → arrayFreeV cv = true := by
  intro c
  induction c with
  | nil => intro k cv _ h; simp at h
  | cons hd tl ih =>
    intro k cv ha h
    obtain ⟨k1, v1⟩ := hd
    simp only [arrayFreeL, Bool.and_eq_true] at ha
    rcases List.mem_cons.mp h with h | h
    · rw [Prod.mk.injEq] at h
      rw [h.2]
      exact ha.1
    · exact ih k cv ha.2 h

/-- Sequence-free case: applying the diff on top of `prev` and re-diffing
against `current` leaves nothing.  (`n` is a size bound driving the
induction.) -/
theorem diff_apply_diff_nil :
    ∀ (n : Nat) (c p : List (String × Val)), sizeOf c ≤ n → wfL c = true →
      arrayFreeL c = true →
      stateChanged (applyPatch p (stateChanged p c)) c = [] := by
  intro n
  induction n with
  | zero =>
    intro c p hs _ _
    cases c with
    | nil => rw [stateChanged]
    | cons hd tl => exfalso; simp only [List.cons.sizeOf_spec] at hs; omega
  | succ n ih =>
    intro c p hs hw ha
    apply stateChanged_nil_of_entries
    intro k cv hm
    have hnod := wfL_nodupKeys hw
    have hwcv : wfV cv = true := wfV_of_mem c k cv hw hm
    have hacv : arrayFreeV cv = true := arrayFreeV_of_mem c k cv ha hm
    have hpatch := lookup_stateChanged_of_entry p c k cv hnod hm
    have happ := lookup_applyPatch (stateChanged p c) p k (nodupKeys_stateChanged p c hnod)
    rcases diffEntry_shape (lookup p k) k cv with hde | ⟨w, hde⟩
    · have hpatch' : lookup (stateChanged p c) k = none := by rw [hpatch, hde]
      rw [hpatch'] at happ
      have happ' : lookup (applyPatch p (stateChanged p c)) k = lookup p k := by
        rw [happ]
      rw [happ']
      exact hde
    · have hpatch' : lookup (stateChanged p c) k = some w := by rw [hpatch, hde]
      rw [hpatch'] at happ
      have happ' : lookup (applyPatch p (stateChanged p c)) k
          = some (mergeVal (lookup p k) w) := by rw [happ]
      rw [happ']
      cases cv with
      | arr l => simp [arrayFreeV] at hacv
      | undef =>
        rw [diffEntry_undef] at hde
        split at hde
        · exact absurd hde (by simp)
        · simp only [List.cons.injEq, Prod.mk.injEq, eq_self_iff_true, and_true, true_and] at hde
          subst hde
          rw [mergeVal_not_obj _ _ (by intro pd h; exact Val.noConfusion h)]
          rw [diffEntry_undef]
          simp [jsStrictEqO, jsStrictEq]
      | prim x =>
        rw [diffEntry_prim] at hde
        split at hde
        · exact absurd hde (by simp)
        · simp only [List.cons.injEq, Prod.mk.injEq, eq_self_iff_true, and_true, true_and] at hde
          subst hde
          rw [mergeVal_not_obj _ _ (by intro pd h; exact Val.noConfusion h)]
          rw [diffEntry_prim]
          simp [jsStrictEqO, jsStrictEq]
      | obj co =>
        have hwco : wfL co = true := by simpa [wfV] using hwcv
        have haco : arrayFreeL co = true := by simpa [arrayFreeV] using hacv
        have hsz : sizeOf co ≤ n := by
          have := sizeOf_lt_of_mem_kv c k (Val.obj co) hm
          simp only [Val.obj.sizeOf_spec] at this
          omega
        cases hpv : lookup p k with
        | some pvv =>
          cases pvv with
          | obj po =>
            rw [hpv, diffEntry_obj_obj] at hde
            split at hde
            · simp only [List.cons.injEq, Prod.mk.injEq, eq_self_iff_true, and_true, true_and] at hde
              subst hde
              rw [mergeVal_obj_obj, diffEntry_obj_obj]
              rw [ih co po hsz hwco haco]
              simp
            · exact absurd hde (by simp)
          | undef =>
            rw [hpv, diffEntry_obj_notobj _ _ _ (by intro po h; simp at h)] at hde
            split at hde
            · exact absurd hde (by simp)
            · simp only [List.cons.injEq, Prod.mk.injEq, eq_self_iff_true, and_true, true_and] at hde
              subst hde
              rw [mergeVal_pv_not_obj _ _ (by intro po h; simp at h)]
              rw [diffEntry_obj_obj]
              rw [diff_nil_of_agree (sizeOf co) co co (le_refl _) hwco haco
                fun k' v' hm' => lookup_of_mem_nodup (wfL_nodupKeys hwco) hm']
              simp
          | prim y =>
            rw [hpv, diffEntry_obj_notobj _ _ _ (by intro po h; simp at h)] at hde
            split at hde
            · exact absurd hde (by simp)
            · simp only [List.cons.injEq, Prod.mk.injEq, eq_self_iff_true, and_true, true_and] at hde
              subst hde
              rw [mergeVal_pv_not_obj _ _ (by intro po h; simp at h)]
              rw [diffEntry_obj_obj]
              rw [diff_nil_of_agree (sizeOf co) co co (le_refl _) hwco haco
                fun k' v' hm' => lookup_of_mem_nodup (wfL_nodupKeys hwco) hm']
              simp
          | arr l =>
            rw [hpv, diffEntry_obj_notobj _ _ _ (by intro po h; simp at h)] at hde
            split at hde
            · exact absurd hde (by simp)
            · simp only [List.cons.injEq, Prod.mk.injEq, eq_self_iff_true, and_true, true_and] at hde
              subst hde
              rw [mergeVal_pv_not_obj _ _ (by intro po h; simp at h)]
              rw [diffEntry_obj_obj]
              rw [diff_nil_of_agree (sizeOf co) co co (le_refl _) hwco haco
                fun k' v' hm' => lookup_of_mem_nodup (wfL_nodupKeys hwco) hm']
              simp
        | none =>
          rw [hpv, diffEntry_obj_notobj _ _ _ (by intro po h; simp at h)] at hde
          split at hde
          · exact absurd hde (by simp)
          · simp only [List.cons.injEq, Prod.mk.injEq, eq_self_iff_true, and_true, true_and] at hde
            subst hde
            rw [mergeVal_pv_not_obj _ _ (by intro po h; simp at h)]
            rw [diffEntry_obj_obj]
            rw [diff_nil_of_agree (sizeOf co) co co (le_refl _) hwco haco
              fun k' v' hm' => lookup_of_mem_nodup (wfL_nodupKeys hwco) hm']
            simp

/-- C4 counterexample: `prev = current = {x: [1]}`.  The diff of the two
deep-equal records is the non-empty patch `{x: [1]}`; applying it on top of
`prev` reproduces `{x: [1]}`, and re-diffing against `current` again yields
`{x: [1]}`, not the empty patch — the equal-length array branch re-reports
the unchanged sequence every time. -/
theorem c4_counterexample_rediff_not_empty :
    stateChanged
        (applyPatch [("x", Val.arr [Val.prim 1])]
          (stateChanged [("x", Val.arr [Val.prim 1])] [("x", Val.arr [Val.prim 1])]))
        [("x", Val.arr [Val.prim 1])]
      = [("x", Val.arr [Val.prim 1])] ∧
      stateChanged
        (applyPatch [("x", Val.arr [Val.prim 1])]
          (stateChanged [("x", Val.arr [Val.prim 1])] [("x", Val.arr [Val.prim 1])]))
        [("x", Val.arr [Val.prim 1])]
      ≠ [] := by
  have hd : stateChanged [("x", Val.arr [Val.prim 1])] [("x", Val.arr [Val.prim 1])]
      = [("x", Val.arr [Val.prim 1])] := by
    simp [stateChanged, diffEntry, arrayEntries, arrayElem, lookup, trimHoles,
      holesToVal, jsStrictEq, jsStrictEqO]
  have h : applyPatch [("x", Val.arr [Val.prim 1])]
      (stateChanged [("x", Val.arr [Val.prim 1])] [("x", Val.arr [Val.prim 1])])
      = [("x", Val.arr [Val.prim 1])] := by
    rw [hd, applyPatch, applyPatch]
    rw [mergeVal_not_obj _ _ (by intro pd hx; exact Val.noConfusion hx)]
    simp [setKey, lookup]
  rw [h, hd]
  simp

/-- C4 amended: restricted to a well-formed `current` containing no
sequences, applying `stateChanged(prev, current)` on top of `prev` and
re-diffing the result against `current` yields an empty patch.  (With
sequences the property fails: an unchanged equal-length array is reported
in every diff, so the re-diff is never empty.) -/
theorem c4_amended_apply_rediff_empty_without_sequences
    (prev current : List (String × Val)) (hw : wfL current = true)
    (ha : arrayFreeL current = true) :
    stateChanged (applyPatch prev (stateChanged prev current)) current = [] :=
  diff_apply_diff_nil (sizeOf current) current prev (le_refl _) hw ha

/-- C4 amended witness: `prev = {a: 1, b: {c: 2}}`,
`current = {a: 5, b: {c: 3}, d: 9}` — applying the patch and re-diffing
yields the empty patch. -/
theorem c4_amended_apply_rediff_empty_without_sequences_witness :
    stateChanged
        (applyPatch [("a", Val.prim 1), ("b", Val.obj [("c", Val.prim 2)])]
          (stateChanged [("a", Val.prim 1), ("b", Val.obj [("c", Val.prim 2)])]
            [("a", Val.prim 5), ("b", Val.obj [("c", Val.prim 3)]), ("d", Val.prim 9)]))
        [("a", Val.prim 5), ("b", Val.obj [("c", Val.prim 3)]), ("d", Val.prim 9)]
      = [] :=
  c4_amended_apply_rediff_empty_without_sequences
    [("a", Val.prim 1), ("b", Val.obj [("c", Val.prim 2)])]
    [("a", Val.prim 5), ("b", Val.obj [("c", Val.prim 3)]), ("d", Val.prim 9)]
    (by simp [wfL, wfV, keyFresh]) (by simp [arrayFreeL, arrayFreeV])

end ReactTypeTest
